import Mathlib

/-
Verification of the correlation/risk dashboard script (src/streamlit_app.py)
against its natural-language specification.

The script is a straight-line pandas pipeline.  We embed each stage as a pure
Lean function over exact rationals:
  * prices and returns are `ℚ` (the script uses IEEE doubles; all claims here
    are about exact identities, definedness and signs, which the rational
    model captures; a pandas NaN cell is modelled as `none` / an omitted row);
  * a per-symbol download result (lines 33-46) is an inductive datatype;
  * the aligned data frame `pd.DataFrame(data).dropna()` (line 51) is the
    intersection of the per-symbol date sets;
  * `pct_change().dropna()` (lines 56, 85) maps each price column to its list
    of simple returns (the NaN first row is dropped);
  * a Pearson correlation entry (pandas `DataFrame.corr`, line 57) is `none`
    exactly when either column has zero sum of squared deviations (pandas
    divides by the product of the window standard deviations and yields NaN
    there), and otherwise `cov / (std * std)` as a real number;
  * `Series.rolling(W).corr` (line 77) is modelled through its definedness
    predicate: the point at index t is defined iff a full window of W
    observations ending at t exists and both windows have nonzero variance;
  * the riskfolio block gate (lines 123-148), the weighted portfolio series
    (lines 135-146) and the CSV export (lines 68-72) are modelled directly.
-/

namespace CorrApp

/-- Default used where pandas would never actually read it. -/
def emptySym : String := ""

/-- A per-symbol price series: (date, adjusted close) pairs, dates unique. -/
abbrev PriceSeries := List (Nat × ℚ)

/-- Outcome of one `yf.download` call as inspected by lines 37-46: the frame
may be empty, may lack both price columns, or yields a series taken from
the Adj Close column or (with a warning) from the Close column. -/
inductive DownloadResult
  | empty
  | noPriceCols
  | adjClose (s : PriceSeries)
  | closeOnly (s : PriceSeries)

/-- The `data` dict built by the download loop (lines 30-46): one series per
symbol whose download produced a usable price column, in request order. -/
def dataOf : List (String × DownloadResult) → List (String × PriceSeries)
  | [] => []
  | (s, DownloadResult.adjClose p) :: rest => (s, p) :: dataOf rest
  | (s, DownloadResult.closeOnly p) :: rest => (s, p) :: dataOf rest
  | _ :: rest => dataOf rest

/-- Symbols for which the loop emits a per-symbol `st.error` (lines 44, 46):
empty frames and frames with no valid price column. -/
def failedSymbols : List (String × DownloadResult) → List String
  | [] => []
  | (s, DownloadResult.empty) :: rest => s :: failedSymbols rest
  | (s, DownloadResult.noPriceCols) :: rest => s :: failedSymbols rest
  | _ :: rest => failedSymbols rest

/-- Download results that contribute nothing to `data`. -/
def isFailure : DownloadResult → Bool
  | DownloadResult.empty => true
  | DownloadResult.noPriceCols => true
  | _ => false

/-- Dates of a series. -/
def seriesDates (p : PriceSeries) : List Nat := p.map Prod.fst

/-- Price of a series at a date (never consulted at absent dates). -/
def priceAt (p : PriceSeries) (d : Nat) : ℚ := ((List.lookup d p).getD 0)

/-- Row index of `pd.DataFrame(data).dropna()` (line 51): the dates present in
every downloaded series (rows with any missing symbol are dropped). -/
def alignedDates : List (String × PriceSeries) → List Nat
  | [] => []
  | q :: rest =>
      (seriesDates q.2).filter (fun d => rest.all (fun r => (seriesDates r.2).contains d))

/-- Columns of the aligned frame `df`, one per symbol in `data`. -/
def alignedColumns (data : List (String × PriceSeries)) : List (List ℚ) :=
  data.map (fun q => (alignedDates data).map (fun d => priceAt q.2 d))

/-- One column of `df.pct_change().dropna()`: simple returns between
consecutive rows; the NaN first row is dropped (lines 56, 85). -/
def pct_change (p : List ℚ) : List ℚ :=
  List.zipWith (fun a b => b / a - 1) p p.tail

/-- The panel `returns = df.pct_change().dropna()` (line 56), column-wise. -/
def returnsOf (cols : List (List ℚ)) : List (List ℚ) := cols.map pct_change

/-- The panel `daily_returns = df.pct_change().dropna()` (line 85), written
out separately because the script recomputes it. -/
def dailyReturnsOf (cols : List (List ℚ)) : List (List ℚ) := cols.map pct_change

/-- Mean of a column (0 on the empty column, where pandas has no row). -/
def meanOf (x : List ℚ) : ℚ := x.sum / x.length

/-- Sum of squared deviations from the mean.  It is zero exactly when the
column is constant (or has fewer than two rows), the case in which the
pandas correlation denominator vanishes and the entry is NaN. -/
def ssd (x : List ℚ) : ℚ :=
  (x.map (fun a => (a - meanOf x) * (a - meanOf x))).sum

/-- Sum of products of deviations (the covariance numerator). -/
def sprod (x y : List ℚ) : ℚ :=
  (List.zipWith (fun a b => (a - meanOf x) * (b - meanOf y)) x y).sum

/-- One Pearson correlation entry as computed by `DataFrame.corr` (line 57):
NaN (here `none`) when either column has zero variance, otherwise the
covariance divided by the product of the standard deviations. -/
noncomputable def corr (x y : List ℚ) : Option ℝ :=
  if ssd x = 0 ∨ ssd y = 0 then none
  else some ((sprod x y : ℝ) / (Real.sqrt (ssd x) * Real.sqrt (ssd y)))

/-- The correlation matrix of a column panel, indexed by column positions. -/
noncomputable def corrMatrix (cols : List (List ℚ)) (i j : Nat) : Option ℝ :=
  corr (cols.getD i []) (cols.getD j [])

/-- The whole run up to the return panel: line 48 halts the run with a fatal
error exactly when `data` is empty; otherwise the aligned frame and the
return panel are built (lines 51-56) and every later stage runs. -/
def runAnalysis (dls : List (String × DownloadResult)) :
    Option (List Nat × List (List ℚ)) :=
  if (dataOf dls).isEmpty then none
  else some (alignedDates (dataOf dls), returnsOf (alignedColumns (dataOf dls)))

/-- Trailing window of width W ending at index t (the observations pandas
uses for the rolling statistic at position t, once t + 1 ≥ W). -/
def windowAt (x : List ℚ) (W t : Nat) : List ℚ :=
  (x.take (t + 1)).drop (t + 1 - W)

/-- Definedness of `returns[a].rolling(window).corr(returns[b])` at index t
(line 77): pandas yields a number there iff a full window of W observations
ending at t exists (`min_periods` defaults to the window size) and neither
window is constant (a zero standard deviation makes the quotient NaN). -/
def rollCorrDefinedAt (x y : List ℚ) (W t : Nat) : Bool :=
  decide (W ≤ t + 1) && decide (ssd (windowAt x W t) ≠ 0)
    && decide (ssd (windowAt y W t) ≠ 0)

/-- Number of defined points of the rolling correlation series, i.e. the
length of `roll_corr.dropna()` (line 78). -/
def definedPoints (x y : List ℚ) (W : Nat) : Nat :=
  (List.range x.length).countP (fun t => rollCorrDefinedAt x y W t)

/-- The pair of symbols the rolling-correlation block works on (lines 75-78):
the block runs iff at least two tickers are selected, and then uses the
first two tickers in selection order, with no distinctness check. -/
def rollingPair (tickers : List String) : Option (String × String) :=
  if 2 ≤ tickers.length then some (tickers.getD 0 emptySym, tickers.getD 1 emptySym)
  else none

/-- Whether the risk/optimization block body runs (line 123):
`if riskfolio_available and len(tickers) > 1`. -/
def riskStageRun (available : Bool) (numTickers : Nat) : Bool :=
  available && decide (1 < numTickers)

/-- Whether the `st.warning` of line 148 fires: the `elif not
riskfolio_available` branch, reached only when the `if` of line 123 fails. -/
def riskStageWarned (available : Bool) (numTickers : Nat) : Bool :=
  !(available && decide (1 < numTickers)) && !available

/-- The sub-portfolio kept by line 134: `w[w > 0]`, weights paired with their
symbol's return column. -/
def positiveWeights (wr : List (ℚ × List ℚ)) : List (ℚ × List ℚ) :=
  wr.filter (fun p => decide (0 < p.1))

/-- Line 135: the weighted portfolio return on each of the n dates, the row
sum over positive-weight symbols of weight times that symbol's return. -/
def weightedReturns (wr : List (ℚ × List ℚ)) (n : Nat) : List ℚ :=
  (List.range n).map (fun t => ((positiveWeights wr).map (fun p => p.1 * p.2.getD t 0)).sum)

/-- Running products of a list (pandas `cumprod`): entry t is the product of
the first t + 1 entries. -/
def cumprod (l : List ℚ) : List ℚ :=
  (l.scanl (fun a b => a * b) 1).tail

/-- Line 136: `cumulative_returns = (1 + weighted_returns).cumprod()`. -/
def cumulativeReturns (wr : List ℚ) : List ℚ :=
  cumprod (wr.map (fun r => 1 + r))

/-- Modelled from the spec: the cumulative-return series as section 4.5 words
it, a running product of (1 + weighted return) minus 1.  Comparison target
for the adapter's actual series; not part of the source. -/
def specCumulativeReturns (wr : List ℚ) : List ℚ :=
  (cumprod (wr.map (fun r => 1 + r))).map (fun c => c - 1)

/-- Helper for the running maximum: m is the maximum seen so far. -/
def cummaxAux (m : ℚ) : List ℚ → List ℚ
  | [] => []
  | a :: l => max m a :: cummaxAux (max m a) l

/-- Pandas `cummax`: entry t is the maximum of the first t + 1 entries. -/
def cummax : List ℚ → List ℚ
  | [] => []
  | a :: l => a :: cummaxAux a l

/-- Line 141: `drawdown = (cum - cum.cummax()) / cum.cummax()`. -/
def drawdown (cum : List ℚ) : List ℚ :=
  List.zipWith (fun c m => (c - m) / m) cum (cummax cum)

/-- Rounding to three decimal places as applied by `.round(3)` on displayed
tables (ties broken as by `round`; the claims below only use values where
no tie occurs). -/
def round3 (q : ℚ) : ℚ := (round (q * 1000) : ℤ) / 1000

/-- Header row written by `corr.to_csv(buffer)` (line 69): an empty index-name
cell followed by the column symbols. -/
def csvHeader (syms : List String) : List String := emptySym :: syms

/-- Data rows written by `corr.to_csv(buffer)` (line 69): each row carries its
symbol label and then the matrix entries of that row, at full precision
(the export applies no rounding; only the displayed tables are rounded). -/
def csvRows (syms : List String) (m : Nat → Nat → ℚ) : List (String × List ℚ) :=
  (List.range syms.length).map
    (fun i => (syms.getD i emptySym, (List.range syms.length).map (fun j => m i j)))

/-- Modelled from the spec: the export format of section 6, identical rows but
with every coefficient rounded to 3 decimal places.  Comparison target. -/
def specCsvRows (syms : List String) (m : Nat → Nat → ℚ) : List (String × List ℚ) :=
  (List.range syms.length).map
    (fun i => (syms.getD i emptySym, (List.range syms.length).map (fun j => round3 (m i j))))

/-! Helper lemmas shared by several claims. -/

lemma dataOf_append (a b : List (String × DownloadResult)) :
    dataOf (a ++ b) = dataOf a ++ dataOf b := by
  induction a with
  | nil => rfl
  | cons x t ih => rcases x with ⟨s, r⟩; cases r <;> simp [dataOf, ih]

lemma failedSymbols_append (a b : List (String × DownloadResult)) :
    failedSymbols (a ++ b) = failedSymbols a ++ failedSymbols b := by
  induction a with
  | nil => rfl
  | cons x t ih => rcases x with ⟨s, r⟩; cases r <;> simp [failedSymbols, ih]

lemma dataOf_eq_nil :
    ∀ dls : List (String × DownloadResult),
      (∀ p ∈ dls, isFailure p.2 = true) → dataOf dls = []
  | [], _ => rfl
  | (s, r) :: t, h => by
      have ht := dataOf_eq_nil t (fun p hp => h p (List.mem_cons_of_mem _ hp))
      have hx : isFailure r = true := h (s, r) (List.mem_cons_self _ _)
      cases r with
      | empty => simpa [dataOf] using ht
      | noPriceCols => simpa [dataOf] using ht
      | adjClose p => simp [isFailure] at hx
      | closeOnly p => simp [isFailure] at hx

lemma runAnalysis_none_iff (dls : List (String × DownloadResult)) :
    runAnalysis dls = none ↔ dataOf dls = [] := by
  rcases h : dataOf dls with _ | ⟨a, t⟩ <;> simp [runAnalysis, h]

lemma map_getD_range {α : Type} (l : List α) (d : α) :
    (List.range l.length).map (fun i => l.getD i d) = l := by
  induction l with
  | nil => rfl
  | cons a t ih =>
      rw [List.length_cons, List.range_succ_eq_map, List.map_cons, List.map_map]
      have h2 : ((fun i => (a :: t).getD i d) ∘ Nat.succ) = fun i => t.getD i d := rfl
      rw [h2, ih]
      rfl

/-! Claims. -/

/-- Claim C3, counterexample: two symbols whose series share no date give an
aligned panel with zero common dates, yet the run does not halt — line 48
only tests for an empty `data` dict, so the pipeline proceeds into the
return-calculation stage (on an empty panel). -/
theorem zero_overlap_not_fatal_cex :
    alignedDates (dataOf [("A", DownloadResult.adjClose [(0, 1)]),
        ("B", DownloadResult.adjClose [(1, 1)])]) = [] ∧
    runAnalysis [("A", DownloadResult.adjClose [(0, 1)]),
        ("B", DownloadResult.adjClose [(1, 1)])] ≠ none := by
  decide

/-- Claim C3, amended: the run halts with a fatal report exactly when no
symbol produced usable data; an aligned panel with zero common dates is
not fatal, and the return panel (empty in that case) is still built. -/
theorem halts_iff_no_data (dls : List (String × DownloadResult)) :
    runAnalysis dls = none ↔ dataOf dls = [] :=
  runAnalysis_none_iff dls

/-- Claim C4, counterexample: a duplicated pair of symbols is silently fed to
the rolling-correlation step (no user error, no skip), and with three
tickers the step also runs, on the first two — it is not restricted to
exactly two distinct symbols. -/
theorem rolling_duplicate_cex :
    rollingPair ["AAPL", "AAPL"] = some ("AAPL", "AAPL") ∧
    rollingPair ["ANET", "FN", "ALAB"] ≠ none := by
  decide

/-- Claim C4, amended: the rolling-correlation step is skipped exactly when
fewer than two tickers are selected; whenever at least two are selected it
runs on the first two tickers in selection order, with no distinctness
check and no user-error report for a duplicated symbol. -/
theorem rolling_gate (tickers : List String) :
    (rollingPair tickers = none ↔ tickers.length < 2) ∧
    (2 ≤ tickers.length →
      rollingPair tickers = some (tickers.getD 0 emptySym, tickers.getD 1 emptySym)) := by
  constructor
  · by_cases h : 2 ≤ tickers.length <;> (simp [rollingPair, h]; try omega)
  · intro h; simp [rollingPair, h]

/-- Claim C4, witness for the amended claim at a concrete selection. -/
theorem rolling_gate_witness : rollingPair ["ANET", "FN"] = some ("ANET", "FN") :=
  (rolling_gate ["ANET", "FN"]).2 (by decide)

/-- Claim C5: a symbol whose download returns zero rows is reported in the
per-symbol failure list while the remaining symbols are processed exactly
as if it were absent; and when every requested symbol fails the run halts
(with the single fatal report of line 49) before alignment. -/
theorem fetch_failure_policy (pre post dls : List (String × DownloadResult)) (s : String)
    (hfail : ∀ p ∈ dls, isFailure p.2 = true) :
    dataOf (pre ++ (s, DownloadResult.empty) :: post) = dataOf pre ++ dataOf post ∧
    s ∈ failedSymbols (pre ++ (s, DownloadResult.empty) :: post) ∧
    runAnalysis dls = none := by
  refine ⟨?_, ?_, ?_⟩
  · rw [dataOf_append]; rfl
  · rw [failedSymbols_append]
    exact List.mem_append_right _ (List.mem_cons_self _ _)
  · exact (runAnalysis_none_iff dls).mpr (dataOf_eq_nil dls hfail)

/-- Claim C5, witness: one healthy symbol plus one zero-row symbol, and a
batch whose only symbol failed. -/
theorem fetch_failure_policy_witness :
    dataOf ([("ANET", DownloadResult.adjClose [(0, 1)])] ++ ("FN", DownloadResult.empty) :: []) =
      dataOf [("ANET", DownloadResult.adjClose [(0, 1)])] ++ dataOf [] ∧
    "FN" ∈ failedSymbols
        ([("ANET", DownloadResult.adjClose [(0, 1)])] ++ ("FN", DownloadResult.empty) :: []) ∧
    runAnalysis [("FN", DownloadResult.empty)] = none :=
  fetch_failure_policy [("ANET", DownloadResult.adjClose [(0, 1)])] []
    [("FN", DownloadResult.empty)] "FN" (by decide)

/-- Claim C9: the correlation matrix computed up front (lines 56-57) and the
Daily Correlation matrix recomputed later in the same run (lines 85-86)
are the same function of the aligned panel — the two computations agree on
every panel and every pair of columns. -/
theorem daily_corr_eq_corr (cols : List (List ℚ)) (i j : Nat) :
    corrMatrix (dailyReturnsOf cols) i j = corrMatrix (returnsOf cols) i j ∧
    dailyReturnsOf cols = returnsOf cols :=
  ⟨rfl, rfl⟩

/-- Claim C10: with the analytics capability present but exactly one ticker
selected, the risk/optimization block does not run and no warning of any
kind is emitted; the warning of line 148 fires exactly when the capability
is unavailable. -/
theorem risk_gate_single_ticker (a : Bool) (nt : Nat) :
    (a = true → nt = 1 → riskStageRun a nt = false ∧ riskStageWarned a nt = false) ∧
    (riskStageWarned a nt = true ↔ a = false) := by
  constructor
  · rintro rfl rfl; exact ⟨by decide, by decide⟩
  · cases a <;> simp [riskStageWarned]

/-- Claim C10, witness at the concrete gate inputs of the claim. -/
theorem risk_gate_witness :
    riskStageRun true 1 = false ∧ riskStageWarned true 1 = false :=
  (risk_gate_single_ticker true 1).1 rfl rfl

/-- Claim C2, counterexample: the export path (line 69) writes the unrounded
matrix — a coefficient of 1/3 is written at full precision, not as 0.333,
so the exported rows differ from the spec's rounded rows. -/
theorem csv_rounding_cex :
    csvRows ["A", "B"] (fun i j => if i = j then 1 else 1/3) ≠
      specCsvRows ["A", "B"] (fun i j => if i = j then 1 else 1/3) := by
  simp [csvRows, specCsvRows, round3, List.range_succ]
  norm_num [round_eq]

/-- Claim C2, amended: the exported CSV has one header row (empty index cell
then the symbols) and one data row per symbol, labelled by the row symbol;
coefficients are written at full precision, with no rounding (rounding to
3 decimals applies only to the displayed tables).  On the 2×2 scenario
[[1, 0.5], [0.5, 1]] the output has the claimed shape, and its values
coincide with the rounded ones because they are exact at 3 decimals. -/
theorem csv_export_shape :
    (∀ (syms : List String) (m : Nat → Nat → ℚ), (csvRows syms m).map Prod.fst = syms) ∧
    csvHeader ["A", "B"] = [emptySym, "A", "B"] ∧
    csvRows ["A", "B"] (fun i j => if i = j then 1 else 1/2) =
      [("A", [1, 1/2]), ("B", [1/2, 1])] := by
  refine ⟨?_, rfl, by rfl⟩
  intro syms m
  rw [csvRows, List.map_map]
  exact map_getD_range syms emptySym

lemma scanl_mul_eq (l : List ℚ) : ∀ b : ℚ,
    List.scanl (fun a c => a * c) b l =
      (List.range (l.length + 1)).map (fun t => b * (l.take t).prod) := by
  induction l with
  | nil => intro b; simp
  | cons a t ih =>
      intro b
      rw [List.scanl_cons, ih (b * a)]
      simp [List.range_succ_eq_map, List.map_map, Function.comp_def,
        List.take_succ_cons, mul_assoc]

lemma cumprod_eq (l : List ℚ) :
    cumprod l = (List.range l.length).map (fun t => (l.take (t + 1)).prod) := by
  rw [cumprod, scanl_mul_eq, List.range_succ_eq_map]
  simp [List.map_map, Function.comp_def, one_mul]

lemma countP_agree {l : List Nat} {p q : Nat → Bool} (h : ∀ a ∈ l, p a = q a) :
    l.countP p = l.countP q := by
  induction l with
  | nil => rfl
  | cons a t ih =>
      rw [List.countP_cons, List.countP_cons, h a (List.mem_cons_self _ _),
        ih (fun b hb => h b (List.mem_cons_of_mem _ hb))]

lemma countP_range_ge (N k : Nat) (hk : 1 ≤ k) :
    (List.range N).countP (fun t => decide (k ≤ t + 1)) = N + 1 - k := by
  induction N with
  | zero => simp; omega
  | succ n ih =>
      rw [List.range_succ, List.countP_append, ih]
      by_cases h : k ≤ n + 1 <;> simp [h] <;> omega

/-- Claim C1, counterexample: a one-date panel with weighted return 1 gives
the cumulative series [2] (the bare running product of line 136), while
the spec formula (running product minus 1) gives [1]. -/
theorem cumulative_minus_one_cex :
    cumulativeReturns (weightedReturns [((1 : ℚ), [(1 : ℚ)])] 1) ≠
      specCumulativeReturns (weightedReturns [((1 : ℚ), [(1 : ℚ)])] 1) := by
  have h : weightedReturns [((1 : ℚ), [(1 : ℚ)])] 1 = [1] := by
    simp [weightedReturns, positiveWeights, List.range_succ]
  rw [h]
  simp [cumulativeReturns, specCumulativeReturns, cumprod, List.scanl]

/-- Claim C1, amended: the cumulative-return series of line 136 is, for every
weight/return panel, the bare running product of (1 + weighted return) —
line 136 never subtracts 1, so entry t is the product over s ≤ t of
(1 + weighted return at s), a growth factor starting at (1 + r₀), not the
spec's product-minus-one. -/
theorem cumulative_running_prod (wr : List (ℚ × List ℚ)) (n : Nat) :
    cumulativeReturns (weightedReturns wr n) =
      (List.range n).map
        (fun t => (((weightedReturns wr n).take (t + 1)).map (fun r => 1 + r)).prod) := by
  have hlen : (weightedReturns wr n).length = n := by simp [weightedReturns]
  rw [cumulativeReturns, cumprod_eq, List.length_map, hlen]
  have h2 : (fun t => ((((weightedReturns wr n).map (fun r => 1 + r)).take (t + 1)).prod))
      = fun t => (((weightedReturns wr n).take (t + 1)).map (fun r => 1 + r)).prod := by
    funext t
    rw [← List.map_take]
  rw [h2]

/-- Claim C6, counterexample: over the panel x = [0, 0], y = [0, 1] with
window W = 2 the single full window of x is constant, so pandas yields NaN
there and the rolling series has 0 defined points, not
max(N − W + 1, 0) = 1. -/
theorem rolling_count_cex :
    (definedPoints [(0 : ℚ), 0] [(0 : ℚ), 1] 2 : ℤ) ≠ max ((2 : ℤ) - 2 + 1) 0 := by
  have h : definedPoints [(0 : ℚ), 0] [(0 : ℚ), 1] 2 = 0 := by
    simp [definedPoints, List.range_succ, List.countP_cons, rollCorrDefinedAt,
      windowAt, ssd, meanOf]
  rw [h]
  norm_num

/-- Claim C6, amended: the first W − 1 points of the rolling correlation are
always undefined, and the series has exactly max(N − W + 1, 0) defined
points provided every full window of both chosen series has nonzero
variance; a constant window makes further points NaN (see the
counterexample), so in general the count is only bounded by that value. -/
theorem rolling_defined_count (x y : List ℚ) (W : Nat) (hW : 2 ≤ W)
    (hx : ∀ t, t < x.length → W ≤ t + 1 → ssd (windowAt x W t) ≠ 0)
    (hy : ∀ t, t < x.length → W ≤ t + 1 → ssd (windowAt y W t) ≠ 0) :
    (definedPoints x y W : ℤ) = max ((x.length : ℤ) - W + 1) 0 ∧
    ∀ t, t + 1 < W → rollCorrDefinedAt x y W t = false := by
  constructor
  · have hagree : ∀ t ∈ List.range x.length,
        rollCorrDefinedAt x y W t = decide (W ≤ t + 1) := by
      intro t ht
      rw [List.mem_range] at ht
      by_cases hc : W ≤ t + 1
      · simp [rollCorrDefinedAt, hc, hx t ht hc, hy t ht hc]
      · simp [rollCorrDefinedAt, hc]
    rw [definedPoints, countP_agree hagree, countP_range_ge x.length W (by omega)]
    omega
  · intro t ht
    have hc : ¬ W ≤ t + 1 := by omega
    simp [rollCorrDefinedAt, hc]

/-- Claim C6, witness for the amended claim: x = y = [0, 1], W = 2 gives one
defined point, max(2 − 2 + 1, 0) = 1, and point 0 undefined. -/
theorem rolling_defined_count_witness :
    (definedPoints [(0 : ℚ), 1] [(0 : ℚ), 1] 2 : ℤ) =
      max ((([(0 : ℚ), 1].length : ℕ) : ℤ) - 2 + 1) 0 ∧
    rollCorrDefinedAt [(0 : ℚ), 1] [(0 : ℚ), 1] 2 0 = false := by
  have hside : ∀ t, t < [(0 : ℚ), 1].length → 2 ≤ t + 1 →
      ssd (windowAt [(0 : ℚ), 1] 2 t) ≠ 0 := by
    intro t ht h2
    have ht2 : t < 2 := by simpa using ht
    interval_cases t
    · exact absurd h2 (by omega)
    · norm_num [windowAt, ssd, meanOf]
  exact ⟨(rolling_defined_count [(0 : ℚ), 1] [(0 : ℚ), 1] 2 (by omega) hside hside).1,
    (rolling_defined_count [(0 : ℚ), 1] [(0 : ℚ), 1] 2 (by omega) hside hside).2 0 (by omega)⟩

lemma zipWith_self_eq_map (f : ℚ → ℚ → ℚ) :
    ∀ x : List ℚ, List.zipWith f x x = x.map (fun a => f a a)
  | [] => rfl
  | a :: t => by rw [List.zipWith_cons_cons, List.map_cons, zipWith_self_eq_map f t]

lemma zipWith_flip_eq (f g : ℚ → ℚ → ℚ) (h : ∀ a b, f a b = g b a) :
    ∀ x y : List ℚ, List.zipWith f x y = List.zipWith g y x
  | [], _ => by simp
  | _ :: _, [] => by simp
  | a :: t, b :: u => by
      rw [List.zipWith_cons_cons, List.zipWith_cons_cons, h a b,
        zipWith_flip_eq f g h t u]

lemma sprod_self (x : List ℚ) : sprod x x = ssd x := by
  rw [sprod, ssd, zipWith_self_eq_map]

lemma sprod_comm (x y : List ℚ) : sprod x y = sprod y x := by
  rw [sprod, sprod, zipWith_flip_eq _ _ (fun a b => mul_comm (a - meanOf x) (b - meanOf y))]

lemma ssd_nonneg (x : List ℚ) : 0 ≤ ssd x := by
  rw [ssd]
  apply List.sum_nonneg
  intro a ha
  rcases List.mem_map.mp ha with ⟨b, hb, rfl⟩
  exact mul_self_nonneg _

/-- Claim C7, counterexample: a ReturnPanel with a constant column (here the
returns of the constant price series [1, 1, 1]) has zero variance, so the
pandas correlation denominator is 0 and the diagonal entry is NaN
(modelled as none), not 1.0. -/
theorem corr_diag_undefined_cex :
    corrMatrix (returnsOf [[1, 1, 1]]) 0 0 = none := by
  have h : returnsOf [[(1 : ℚ), 1, 1]] = [[0, 0]] := by
    norm_num [returnsOf, pct_change]
  have hs : ssd [(0 : ℚ), 0] = 0 := by norm_num [ssd, meanOf]
  simp [corrMatrix, h, corr, hs]

/-- Claim C7, amended: the correlation matrix is symmetric on every panel and
every pair of column indices; a diagonal entry equals exactly 1 whenever
its column has nonzero variance, and is undefined (NaN) on a zero-variance
column (see the counterexample). -/
theorem corr_symm_diag :
    (∀ (cols : List (List ℚ)) (i j : Nat), corrMatrix cols i j = corrMatrix cols j i) ∧
    (∀ (cols : List (List ℚ)) (i : Nat),
      ssd (cols.getD i []) ≠ 0 → corrMatrix cols i i = some 1) := by
  constructor
  · intro cols i j
    rw [corrMatrix, corrMatrix, corr, corr]
    refine if_congr or_comm rfl ?_
    rw [sprod_comm, mul_comm]
  · intro cols i h
    rw [corrMatrix, corr, if_neg (by tauto)]
    rw [sprod_self]
    have h0 : (0 : ℝ) ≤ ((ssd (cols.getD i []) : ℚ) : ℝ) := by
      exact_mod_cast ssd_nonneg _
    rw [Real.mul_self_sqrt h0, div_self (by exact_mod_cast h)]

/-- Claim C7, witness: the column [0, 1] has nonzero variance, and its
diagonal correlation entry is exactly 1. -/
theorem corr_symm_diag_witness : corrMatrix [[(0 : ℚ), 1]] 0 0 = some 1 :=
  corr_symm_diag.2 [[(0 : ℚ), 1]] 0
    (by show ssd [(0 : ℚ), 1] ≠ 0; norm_num [ssd, meanOf])

lemma sum_map_add (l : List (ℚ × List ℚ)) (f g : ℚ × List ℚ → ℚ) :
    (l.map (fun p => f p + g p)).sum = (l.map f).sum + (l.map g).sum := by
  induction l with
  | nil => simp
  | cons a t ih =>
      simp only [List.map_cons, List.sum_cons, ih]
      ring

lemma positiveWeights_cons (a : ℚ × List ℚ) (t : List (ℚ × List ℚ)) :
    positiveWeights (a :: t) =
      if 0 < a.1 then a :: positiveWeights t else positiveWeights t := by
  by_cases h : 0 < a.1 <;> simp [positiveWeights, List.filter_cons, h]

lemma sum_filter_fst_le (l : List (ℚ × List ℚ)) (h : ∀ p ∈ l, 0 ≤ p.1) :
    ((positiveWeights l).map Prod.fst).sum ≤ (l.map Prod.fst).sum := by
  induction l with
  | nil => simp [positiveWeights]
  | cons a t ih =>
      have ha := h a (List.mem_cons_self _ _)
      have ht : ∀ p ∈ t, 0 ≤ p.1 := fun p hp => h p (List.mem_cons_of_mem _ hp)
      rw [positiveWeights_cons]
      by_cases hc : 0 < a.1
      · rw [if_pos hc, List.map_cons, List.sum_cons, List.map_cons, List.sum_cons]
        exact add_le_add_left (ih ht) _
      · rw [if_neg hc, List.map_cons, List.sum_cons]
        exact le_trans (ih ht) (le_add_of_nonneg_left ha)

lemma getD_gt_neg_one (c : List ℚ) (t : Nat) (h : ∀ r ∈ c, -1 < r) :
    -1 < c.getD t 0 := by
  by_cases ht : t < c.length
  · rw [List.getD_eq_getElem c 0 ht]
    exact h _ (List.getElem_mem ht)
  · rw [List.getD_eq_default c 0 (le_of_not_lt ht)]
    norm_num

lemma one_add_weighted_pos (wr : List (ℚ × List ℚ)) (t : Nat)
    (hw : ∀ p ∈ wr, 0 ≤ p.1) (hsum : (wr.map Prod.fst).sum = 1)
    (hr : ∀ p ∈ wr, ∀ r ∈ p.2, -1 < r) :
    0 < 1 + ((positiveWeights wr).map (fun p => p.1 * p.2.getD t 0)).sum := by
  have hPmem : ∀ p ∈ positiveWeights wr, 0 < p.1 := by
    intro p hp
    exact of_decide_eq_true (List.mem_filter.mp hp).2
  have hPsub : ∀ p ∈ positiveWeights wr, p ∈ wr :=
    fun p hp => (List.mem_filter.mp hp).1
  have key : ((positiveWeights wr).map (fun p => p.1 * p.2.getD t 0)).sum
      = ((positiveWeights wr).map (fun p => p.1 * (1 + p.2.getD t 0))).sum
        - ((positiveWeights wr).map Prod.fst).sum := by
    rw [eq_sub_iff_add_eq, ← sum_map_add]
    refine congrArg List.sum (List.map_congr_left ?_)
    intro p hp
    ring
  rw [key]
  have h1 : ((positiveWeights wr).map Prod.fst).sum ≤ 1 :=
    hsum ▸ sum_filter_fst_le wr hw
  have hterm : ∀ p ∈ positiveWeights wr, 0 < p.1 * (1 + p.2.getD t 0) := by
    intro p hp
    have hx : -1 < p.2.getD t 0 := getD_gt_neg_one _ _ (hr p (hPsub p hp))
    exact mul_pos (hPmem p hp) (by linarith)
  rcases eq_or_lt_of_le h1 with he | hl
  · have hne : positiveWeights wr ≠ [] := by
      intro h0
      rw [h0] at he
      simp at he
    have hpos : 0 < ((positiveWeights wr).map (fun p => p.1 * (1 + p.2.getD t 0))).sum := by
      apply List.sum_pos
      · intro q hq
        rcases List.mem_map.mp hq with ⟨p, hp, rfl⟩
        exact hterm p hp
      · simpa using hne
    linarith
  · have hS : 0 ≤ ((positiveWeights wr).map (fun p => p.1 * (1 + p.2.getD t 0))).sum := by
      apply List.sum_nonneg
      intro q hq
      rcases List.mem_map.mp hq with ⟨p, hp, rfl⟩
      exact (hterm p hp).le
    linarith

lemma cumprod_pos (l : List ℚ) (h : ∀ x ∈ l, 0 < x) : ∀ c ∈ cumprod l, 0 < c := by
  intro c hc
  rw [cumprod_eq] at hc
  rcases List.mem_map.mp hc with ⟨t, ht, rfl⟩
  apply List.prod_pos
  intro a ha
  exact h a (List.mem_of_mem_take ha)

lemma cummaxAux_length (m : ℚ) (l : List ℚ) : (cummaxAux m l).length = l.length := by
  induction l generalizing m with
  | nil => rfl
  | cons a t ih => simp [cummaxAux, ih]

lemma cummax_length (l : List ℚ) : (cummax l).length = l.length := by
  cases l with
  | nil => rfl
  | cons a t => simp [cummax, cummaxAux_length]

lemma le_cummaxAux (m : ℚ) (l : List ℚ) :
    ∀ i, i < l.length → l.getD i 0 ≤ (cummaxAux m l).getD i 0 := by
  induction l generalizing m with
  | nil => intro i hi; simp at hi
  | cons a t ih =>
      intro i hi
      cases i with
      | zero =>
          simp only [cummaxAux, List.getD_cons_zero]
          exact le_max_right m a
      | succ k =>
          simp only [cummaxAux, List.getD_cons_succ]
          exact ih (max m a) k (by simpa using hi)

lemma le_cummax (l : List ℚ) : ∀ i, i < l.length → l.getD i 0 ≤ (cummax l).getD i 0 := by
  cases l with
  | nil => intro i hi; simp at hi
  | cons a t =>
      intro i hi
      cases i with
      | zero => simp [cummax]
      | succ k =>
          simp only [cummax, List.getD_cons_succ]
          exact le_cummaxAux a t k (by simpa using hi)

/-- Claim C8: every drawdown value derived (lines 135-141) from a panel of
returns strictly above −1 (any returns computed from positive prices) and
a weight vector of nonnegative weights summing to 1 is ≤ 0; out-of-range
positions read as the default 0, also ≤ 0. -/
theorem drawdown_nonpos (wr : List (ℚ × List ℚ)) (n : Nat)
    (hw : ∀ p ∈ wr, 0 ≤ p.1) (hsum : (wr.map Prod.fst).sum = 1)
    (hr : ∀ p ∈ wr, ∀ r ∈ p.2, -1 < r) :
    ∀ t, (drawdown (cumulativeReturns (weightedReturns wr n))).getD t 0 ≤ 0 := by
  intro t
  have hpos : ∀ c ∈ cumulativeReturns (weightedReturns wr n), 0 < c := by
    rw [cumulativeReturns]
    refine cumprod_pos _ ?_
    intro x hx
    rcases List.mem_map.mp hx with ⟨r, hrmem, rfl⟩
    rcases List.mem_map.mp hrmem with ⟨s, hs, rfl⟩
    exact one_add_weighted_pos wr s hw hsum hr
  set cum := cumulativeReturns (weightedReturns wr n) with hcum
  by_cases ht : t < (drawdown cum).length
  · have hlen : (drawdown cum).length = cum.length := by
      simp [drawdown, List.length_zipWith, cummax_length]
    have htc : t < cum.length := hlen ▸ ht
    have htm : t < (cummax cum).length := by rw [cummax_length]; exact htc
    rw [List.getD_eq_getElem _ 0 ht]
    have hget : (drawdown cum)[t] = (cum[t] - (cummax cum)[t]) / (cummax cum)[t] := by
      simp [drawdown, List.getElem_zipWith]
    rw [hget]
    have hc : 0 < cum[t] := hpos _ (List.getElem_mem htc)
    have hle : cum[t] ≤ (cummax cum)[t] := by
      have := le_cummax cum t htc
      rwa [List.getD_eq_getElem _ 0 htc, List.getD_eq_getElem _ 0 htm] at this
    have hm : 0 < (cummax cum)[t] := lt_of_lt_of_le hc hle
    exact div_nonpos_iff.mpr (Or.inr ⟨sub_nonpos.mpr hle, hm.le⟩)
  · rw [List.getD_eq_default _ 0 (le_of_not_lt ht)]

/-- Claim C8, witness: one asset with weight 1 and a single 100% return gives
the drawdown series [0], whose first value is ≤ 0. -/
theorem drawdown_nonpos_witness :
    (drawdown (cumulativeReturns (weightedReturns [((1 : ℚ), [(1 : ℚ)])] 1))).getD 0 0 ≤ 0 :=
  drawdown_nonpos [((1 : ℚ), [(1 : ℚ)])] 1
    (by intro p hp; rw [List.mem_singleton] at hp; subst hp; norm_num)
    (by norm_num)
    (by
      intro p hp
      rw [List.mem_singleton] at hp
      subst hp
      intro r hrm
      rw [List.mem_singleton] at hrm
      subst hrm
      norm_num)
    0

end CorrApp
